import Mathlib

/-!
Verification of the `hyperliquid-openapi` documentation pipeline.

This file gives a shallow embedding of the repository's update script
(`update.ts`, and the variant of the same script whose file name is unknown,
called `part_000` below).  JavaScript strings are modelled as `List Char`
(UTF-16 code units); JSON values as the inductive `JValue`; the external
JSON-Schema-to-OpenAPI converter (`convert` from
`@openapi-contrib/json-schema-to-openapi-schema`) is an opaque parameter
`conv : JValue → JValue`; the GitBook REST service is modelled by an explicit
environment (listing pages, per-slug accept predicates) and the remote slug
store as a list of slugs with DELETE/PUT transition semantics.
`Array.prototype.sort()` and `localeCompare`-based sorts are modelled by a
code-unit lexicographic insertion sort (the claims below depend only on the
sorted list being a permutation of the input).
-/

/-- JavaScript strings, modelled as lists of UTF-16 code units. -/
abbrev Str := List Char

/-- `replaceFirstCharToUpperCase` from `update.ts` / `part_000`:
`str.charAt(0).toUpperCase() + str.slice(1)` (for `""` it returns `""`). -/
def replaceFirstCharToUpperCase : Str → Str
  | [] => []
  | c :: rest => c.toUpper :: rest

/-- The literal suffix `"SuccessResponse"` used by the response-name
normalization in `part_000`, line 192. -/
def sucRespSuffix : Str := "SuccessResponse".data

/-- Response-name normalization from `part_000`, line 192:
`name.replace(/(.+)SuccessResponse$/, "$1Response")`.

The regex `(.+)SuccessResponse$` matches iff the string ends with
`SuccessResponse` and at least one character precedes the suffix (the greedy
`.+` then captures exactly the first `length - 15` characters, since the
anchored literal suffix has fixed length 15); otherwise `replace` returns the
string unchanged. -/
def normalizeResponseName (s : Str) : Str :=
  if sucRespSuffix <:+ s ∧ 16 ≤ s.length then
    s.take (s.length - 15) ++ "Response".data
  else s

-- ======================================================================================
-- JSON values and the OpenAPI assembler (both source versions)
-- ======================================================================================

/-- JSON values (the payloads flowing between `toJsonSchema`, `convert` and
`JSON.stringify`). -/
inductive JValue where
  | jnull
  | jbool (b : Bool)
  | jnum (n : Int)
  | jstr (s : Str)
  | jarr (elems : List JValue)
  | jobj (fields : List (Str × JValue))

/-- JavaScript property access `v[k]` on a JSON value: `some` of the first
field with the given key on an object, `none` (i.e. `undefined`) otherwise. -/
def jLookup : JValue → Str → Option JValue
  | .jobj fields, k => (fields.find? (fun f => f.1 == k)).map Prod.snd
  | _, _ => none

/-- JavaScript truthiness of a JSON value. -/
def jsTruthy : JValue → Bool
  | .jnull => false
  | .jbool b => b
  | .jnum n => decide (n ≠ 0)
  | .jstr s => decide (s ≠ [])
  | .jarr _ => true
  | .jobj _ => true

/-- The JavaScript idiom `x || ""` applied to a possibly-undefined value
(used for `request.description || ""` and `response?.description || ""`). -/
def jsOrEmptyStr (v : Option JValue) : JValue :=
  match v with
  | some x => if jsTruthy x then x else .jstr []
  | none => .jstr []

/-- The endpoint categories (`type Endpoint = "info" | "exchange"`). -/
inductive Endpoint where
  | info
  | exchange
deriving DecidableEq

/-- The string key of an endpoint category. -/
def epName : Endpoint → Str
  | .info => "info".data
  | .exchange => "exchange".data

/-- One entry of `AllSchemas`: the converted request/response JSON Schemas of
one method. -/
structure SchemaPair where
  request : JValue
  response : JValue

/-- `AllSchemas` from the sources: per endpoint category, an ordered map
(association list, preserving JavaScript object key order) from method name to
its JSON Schema pair. -/
structure AllSchemas where
  info : List (Str × SchemaPair)
  exchange : List (Str × SchemaPair)

/-- `OpenAPISpecs`-shaped maps: per endpoint category, an ordered map from
method name to a document of type `δ` (instantiated with `JValue` by the
assembler; the ToC updater and the publisher only use the keys and an opaque
serialization, so they are polymorphic in `δ`). -/
structure OpenAPISpecs (δ : Type) where
  info : List (Str × δ)
  exchange : List (Str × δ)

namespace UpdateTs

/-- The OpenAPI document built for one method by `jsonSchemasToOpenAPIs` in
`src/update.ts` (lines 111–156), with the external `convert` passed as the
opaque `conv`. -/
def buildSpec (conv : JValue → JValue) (ep : Endpoint) (method : Str) (p : SchemaPair) : JValue :=
  .jobj [
    ("openapi".data, .jstr "3.1.1".data),
    ("info".data, .jobj [
      ("title".data, .jstr ("Hyperliquid API - ".data ++ epName ep ++ "/".data ++ method)),
      ("version".data, .jstr "1.0.0".data)]),
    ("servers".data, .jarr [
      .jobj [("url".data, .jstr "https://api.hyperliquid.xyz".data),
             ("description".data, .jstr "Mainnet".data)],
      .jobj [("url".data, .jstr "https://api.hyperliquid-testnet.xyz".data),
             ("description".data, .jstr "Testnet".data)]]),
    ("tags".data, .jarr [.jobj [
      ("name".data, .jstr method),
      ("x-page-title".data, .jstr method),
      ("x-page-slug".data, .jstr method)]]),
    ("paths".data, .jobj [
      ("/".data ++ epName ep, .jobj [
        ("post".data, .jobj [
          ("tags".data, .jarr [.jstr method]),
          ("description".data, jsOrEmptyStr (jLookup p.request "description".data)),
          ("requestBody".data, .jobj [
            ("content".data, .jobj [
              ("application/json".data, .jobj [("schema".data, conv p.request)])]),
            ("required".data, .jbool true)]),
          ("responses".data, .jobj (
            [("200".data, .jobj [
               ("description".data, jsOrEmptyStr (jLookup p.response "description".data)),
               ("content".data, .jobj [
                 ("application/json".data, .jobj [("schema".data, conv p.response)])])]),
             ("422".data, .jobj [
               ("description".data,
                .jstr "Failed to deserialize the JSON body into the target type".data),
               ("content".data, .jobj [
                 ("text/plain".data, .jobj [
                   ("schema".data, .jobj [("type".data, .jstr "string".data)])])])])]
            ++ (match ep with
              | .info => [("500".data, .jobj [
                  ("description".data, .jstr "Internal Server Error".data),
                  ("content".data, .jobj [
                    ("application/json".data, .jobj [
                      ("schema".data, .jobj [("type".data, .jstr "null".data)])])])])]
              | .exchange => [])))])])])]

/-- `jsonSchemasToOpenAPIs` from `src/update.ts` (lines 97–166): iterate the
two endpoint categories in object-key order, and every method in map order,
building one OpenAPI document per method. -/
def jsonSchemasToOpenAPIs (conv : JValue → JValue) (schemas : AllSchemas) :
    OpenAPISpecs JValue where
  info := schemas.info.map (fun e => (e.1, buildSpec conv .info e.1 e.2))
  exchange := schemas.exchange.map (fun e => (e.1, buildSpec conv .exchange e.1 e.2))

end UpdateTs

namespace Part000

/-- The OpenAPI document built for one method by `jsonSchemasToOpenAPIs` in
`src/unnamed/part_000` (lines 227–272), with the external `convert` passed as
the opaque `conv`. -/
def buildSpec (conv : JValue → JValue) (ep : Endpoint) (method : Str) (p : SchemaPair) : JValue :=
  .jobj [
    ("openapi".data, .jstr "3.1.1".data),
    ("info".data, .jobj [
      ("title".data, .jstr ("Hyperliquid API - ".data ++ epName ep ++ "/".data ++ method)),
      ("version".data, .jstr "1.0.0".data)]),
    ("servers".data, .jarr [
      .jobj [("url".data, .jstr "https://api.hyperliquid.xyz".data),
             ("description".data, .jstr "Mainnet".data)],
      .jobj [("url".data, .jstr "https://api.hyperliquid-testnet.xyz".data),
             ("description".data, .jstr "Testnet".data)]]),
    ("tags".data, .jarr [.jobj [
      ("name".data, .jstr method),
      ("x-page-title".data, .jstr method),
      ("x-page-slug".data, .jstr method)]]),
    ("paths".data, .jobj [
      ("/".data ++ epName ep, .jobj [
        ("post".data, .jobj [
          ("tags".data, .jarr [.jstr method]),
          ("description".data, jsOrEmptyStr (jLookup p.request "description".data)),
          ("requestBody".data, .jobj [
            ("content".data, .jobj [
              ("application/json".data, .jobj [("schema".data, conv p.request)])]),
            ("required".data, .jbool true)]),
          ("responses".data, .jobj (
            [("200".data, .jobj [
               ("description".data, jsOrEmptyStr (jLookup p.response "description".data)),
               ("content".data, .jobj [
                 ("application/json".data, .jobj [("schema".data, conv p.response)])])]),
             ("422".data, .jobj [
               ("description".data,
                .jstr "Failed to deserialize the JSON body into the target type".data),
               ("content".data, .jobj [
                 ("text/plain".data, .jobj [
                   ("schema".data, .jobj [("type".data, .jstr "string".data)])])])])]
            ++ (match ep with
              | .info => [("500".data, .jobj [
                  ("description".data, .jstr "Internal Server Error".data),
                  ("content".data, .jobj [
                    ("application/json".data, .jobj [
                      ("schema".data, .jobj [("type".data, .jstr "null".data)])])])])]
              | .exchange => [])))])])])]

/-- `jsonSchemasToOpenAPIs` from `src/unnamed/part_000` (lines 213–282). -/
def jsonSchemasToOpenAPIs (conv : JValue → JValue) (schemas : AllSchemas) :
    OpenAPISpecs JValue where
  info := schemas.info.map (fun e => (e.1, buildSpec conv .info e.1 e.2))
  exchange := schemas.exchange.map (fun e => (e.1, buildSpec conv .exchange e.1 e.2))

end Part000

/-- Navigate a built document to its `responses` object:
`doc.paths["/" + endpoint].post.responses`. -/
def responsesObj (ep : Endpoint) (doc : JValue) : Option JValue :=
  (((jLookup doc "paths".data).bind
    (fun p => jLookup p ("/".data ++ epName ep))).bind
    (fun p => jLookup p "post".data)).bind
    (fun p => jLookup p "responses".data)

/-- Whether a built document carries a `"500"` entry in its responses. -/
def has500 (ep : Endpoint) (doc : JValue) : Bool :=
  ((responsesObj ep doc).bind (fun r => jLookup r "500".data)).isSome

-- ======================================================================================
-- The Schema Resolver (`extractFunctionSchema` from `src/unnamed/part_000`)
-- ======================================================================================

/-- One JSDoc tag of a documentation node (`@deno/doc`); `doc` is `some` when
the serialized tag carries a `doc` field. -/
structure JsDocTag where
  kind : Str
  doc : Option Str

/-- The JSDoc block of a documentation node. -/
structure JsDocInfo where
  tags : Option (List JsDocTag)

/-- A `@deno/doc` type expression, as inspected by the resolver: a `typeRef`
with its `typeName` and optional `typeParams`, or any other kind of type. -/
inductive TsType where
  | typeRef (typeName : Str) (typeParams : Option (List TsType))
  | other

/-- A `@deno/doc` documentation node, restricted to the fields the resolver
reads: `name`, `kind`, `jsDoc`, and (for function nodes)
`functionDef.returnType`. -/
structure DocNode where
  name : Str
  kind : Str
  jsDoc : Option JsDocInfo
  returnType : Option TsType

/-- The error kinds of the resolver (spec section 7): every `throw` site of
`extractFunctionSchema` raises one of these.  `NotFoundError` covers the
"Function ... not found", "Request type name not found" and "Response type
name not found" messages; `InvalidReturnTypeError` covers "... does not return
Promise" and "Cannot extract response type from Promise". -/
inductive ExtractErr where
  | NotFoundError
  | InvalidReturnTypeError
deriving DecidableEq

/-- The successful result of the resolver:
`{request: string, response: string, example?: string}` (the `example` field
is renamed `exampleDoc` because `example` is a Lean keyword). -/
structure FunctionSchemaInfo where
  request : Str
  response : Str
  exampleDoc : Option Str

/-- Request-name resolution from `part_000`, lines 153–160: try
`{Fn}Request`, and only if that is absent try `{Fn}{Endpoint}Request`. -/
def findRequestNode (docNodes : List DocNode) (fU eU : Str) : Option DocNode :=
  match docNodes.find? (fun n => n.name == fU ++ "Request".data) with
  | some n => some n
  | none => docNodes.find? (fun n => n.name == fU ++ eU ++ "Request".data)

/-- Response-name resolution from `part_000`, lines 162–188: try
`{Fn}Response`, then `{Fn}{Endpoint}Response`, then inspect the function's
declared return type, which must be a `typeRef` to `Promise`; its first type
parameter must itself be a `typeRef` with a non-empty name, which is then
looked up among the nodes. -/
def findResponseNode (docNodes : List DocNode) (functionNode : DocNode) (fU eU : Str) :
    Except ExtractErr DocNode :=
  match docNodes.find? (fun n => n.name == fU ++ "Response".data) with
  | some n => .ok n
  | none =>
    match docNodes.find? (fun n => n.name == fU ++ eU ++ "Response".data) with
    | some n => .ok n
    | none =>
      match functionNode.returnType with
      | some (.typeRef tn tps) =>
        if tn = "Promise".data then
          match tps with
          | none => .error .InvalidReturnTypeError
          | some [] => .error .InvalidReturnTypeError
          | some (p :: _) =>
            match p with
            | .typeRef ptn _ =>
              if ptn = [] then .error .NotFoundError
              else
                match docNodes.find? (fun n => n.name == ptn) with
                | some n => .ok n
                | none => .error .NotFoundError
            | .other => .error .InvalidReturnTypeError
        else .error .InvalidReturnTypeError
      | _ => .error .InvalidReturnTypeError

/-- The `@example` JSDoc extraction of `part_000`, lines 146–147:
`functionNode.jsDoc?.tags?.find(tag => tag.kind === "example")`, then its
`doc` field when present. -/
def exampleOf (functionNode : DocNode) : Option Str :=
  let exampleTag : Option JsDocTag :=
    match functionNode.jsDoc with
    | some j =>
      match j.tags with
      | some ts => ts.find? (fun t => t.kind == "example".data)
      | none => none
    | none => none
  exampleTag.bind (fun t => JsDocTag.doc t)

/-- `extractFunctionSchema` from `src/unnamed/part_000` (lines 114–199),
with the `@deno/doc` call abstracted to its result `docNodes` (the structured
symbol table of the method's source file). -/
def extractFunctionSchema (docNodes : List DocNode) (functionName endpoint : Str) :
    Except ExtractErr FunctionSchemaInfo :=
  match docNodes.find? (fun n => n.name == functionName && n.kind == "function".data) with
  | none => .error .NotFoundError
  | some functionNode =>
    let fU := replaceFirstCharToUpperCase functionName
    let eU := replaceFirstCharToUpperCase endpoint
    match findRequestNode docNodes fU eU with
    | none => .error .NotFoundError
    | some requestNode =>
      match findResponseNode docNodes functionNode fU eU with
      | .error e => .error e
      | .ok responseNode =>
        .ok ⟨requestNode.name, normalizeResponseName responseNode.name, exampleOf functionNode⟩

/-- Fixture: a function node whose declared return type is a `Promise` with
*two* type parameters, the first a named type reference. -/
def c5fn : DocNode :=
  ⟨"get".data, "function".data, none,
   some (.typeRef "Promise".data (some [.typeRef "Foo".data none, .typeRef "Bar".data none]))⟩

/-- Fixture: a symbol table where neither `GetResponse` nor `GetInfoResponse`
exists, the request resolves directly, and the `Promise`'s first type
parameter name `Foo` resolves. -/
def c5nodes : List DocNode :=
  [c5fn,
   ⟨"GetRequest".data, "variable".data, none, none⟩,
   ⟨"Foo".data, "variable".data, none, none⟩]

/-- Fixture: a function node returning `Promise<FooSuccessResponse>`. -/
def c5wfn : DocNode :=
  ⟨"get".data, "function".data, none,
   some (.typeRef "Promise".data (some [.typeRef "FooSuccessResponse".data none]))⟩

/-- Fixture: a symbol table exercising the last-resort response resolution
followed by the `SuccessResponse` normalization. -/
def c5wnodes : List DocNode :=
  [c5wfn,
   ⟨"GetRequest".data, "variable".data, none, none⟩,
   ⟨"FooSuccessResponse".data, "variable".data, none, none⟩]

-- ======================================================================================
-- Sorting (models of `Array.prototype.sort()` and `localeCompare` ordering)
-- ======================================================================================

/-- Code-unit lexicographic comparison of strings, modelling JavaScript's
default string sort order (and standing in for `localeCompare`, whose exact
order is locale dependent; the claims below depend only on the sorted list
being a permutation of the input). -/
def lexLe : Str → Str → Bool
  | [], _ => true
  | _ :: _, [] => false
  | a :: as, b :: bs => if a = b then lexLe as bs else decide (a < b)

/-- `lexLe` as a relation, for `List.insertionSort`. -/
def lexLeRel (a b : Str) : Prop := lexLe a b = true

instance : DecidableRel lexLeRel :=
  fun a b => inferInstanceAs (Decidable (lexLe a b = true))

/-- Sorting a list of strings, modelling `.sort()` on string arrays. -/
def sortStrs (l : List Str) : List Str := List.insertionSort lexLeRel l

-- ======================================================================================
-- The Table-of-Contents updater (`updateSummary` from `src/update.ts`)
-- ======================================================================================

/-- The whitespace predicate of `String.prototype.trimEnd` (restricted to the
code points that can occur here; the development only uses that it is some
fixed predicate satisfied by `'\n'` and not by `'#'`). -/
def wsChar (c : Char) : Bool :=
  c == ' ' || c == '\t' || c == '\n' || c == '\r' || c == '\x0b' || c == '\x0c'

/-- `String.prototype.trimEnd`: drop trailing whitespace. -/
def trimEnd (s : Str) : Str := (s.reverse.dropWhile wsChar).reverse

/-- `String.prototype.indexOf(pat)`: the least index at which `pat` occurs as
a contiguous substring, `none` when there is no occurrence. -/
def strIndexOf (pat : Str) : Str → Option Nat
  | [] => if pat = [] then some 0 else none
  | c :: cs => if pat <+: (c :: cs) then some 0 else (strIndexOf pat cs).map (· + 1)

/-- `String.prototype.indexOf(pat, start)`: the least index `≥ start` at
which `pat` occurs. -/
def strIndexOfFrom (pat s : Str) (start : Nat) : Option Nat :=
  (strIndexOf pat (s.drop start)).map (· + start)

/-- `Array.prototype.join("\n")` on the collected lines. -/
def joinSep (sep : Str) : List Str → Str
  | [] => []
  | [l] => l
  | l :: ls => l ++ sep ++ joinSep sep ls

/-- The eleven lines pushed for one method of one section in `updateSummary`
(`src/update.ts`, lines 194–206). -/
def methodLines (sectionKey mth : Str) : List Str :=
  ["  - ```yaml".data,
   "    type: builtin:openapi".data,
   "    props:".data,
   "      models: false".data,
   "      downloadLink: false".data,
   "    dependencies:".data,
   "      spec:".data,
   "        ref:".data,
   "          kind: openapi".data,
   "          spec: hl-".data ++ sectionKey ++ "-".data ++ mth,
   "    ```".data]

/-- The lines contributed by one section of the ToC: nothing when the section
has no methods (the `continue`), otherwise the section heading followed by the
per-method blocks and a blank line (`src/update.ts`, lines 188–209). -/
def summarySectionLines (sectionKey : Str) (methods0 : List Str) : List Str :=
  let methods := sortStrs methods0
  if methods.length = 0 then []
  else ("- ".data ++ replaceFirstCharToUpperCase sectionKey)
       :: methods.flatMap (methodLines sectionKey) ++ [[]]

/-- The keys of the `OpenAPISpecs` object, in object-literal order. -/
def sectionKeys : List Str := ["info".data, "exchange".data]

/-- `Object.keys(openapiSpecs[section])` for the two section keys. -/
def sectionMethods {δ : Type} (m : OpenAPISpecs δ) (s : Str) : List Str :=
  if s = "info".data then m.info.map Prod.fst
  else if s = "exchange".data then m.exchange.map Prod.fst
  else []

/-- All lines of the regenerated `## API` section (`src/update.ts`,
lines 187–210): header, blank line, the sorted sections, final blank line. -/
def summaryLines {δ : Type} (m : OpenAPISpecs δ) : List Str :=
  (["## API".data, []]
    ++ (sortStrs sectionKeys).flatMap (fun s => summarySectionLines s (sectionMethods m s)))
  ++ [[]]

/-- `lines.join("\n")`. -/
def summaryBody {δ : Type} (m : OpenAPISpecs δ) : Str :=
  joinSep "\n".data (summaryLines m)

/-- The section header searched for, `"## API"`. -/
def apiHeader : Str := "## API".data

/-- The next-top-level-header pattern, `"\n## "`. -/
def nlHeaderPat : Str := "\n## ".data

/-- The pure text transformation of `updateSummary` (`src/update.ts`,
lines 172–212), with the file read/write stripped: `none` models the thrown
"Section ## API not found" error; otherwise the text written back. -/
def updateSummaryText {δ : Type} (m : OpenAPISpecs δ) (text : Str) : Option Str :=
  match strIndexOf apiHeader text with
  | none => none
  | some start =>
    let nextIdx := strIndexOfFrom nlHeaderPat text (start + apiHeader.length)
    let pre := text.take start
    let suf : Str :=
      match nextIdx with
      | none => []
      | some i => text.drop i
    some (trimEnd (pre ++ summaryBody m ++ suf) ++ ['\n'])

/-- Boolean substring test (`strIndexOf` finds an occurrence). -/
def containsPat (pat s : Str) : Bool := (strIndexOf pat s).isSome

/-- `pat` occurs nowhere in `s` as a contiguous substring. -/
def noOcc (pat s : Str) : Prop := ∀ p, ¬ pat <+: s.drop p

/-- The ten fixed (method-independent) lines of a per-method ToC block. -/
def fixedMethodLines : List Str :=
  ["  - ```yaml".data,
   "    type: builtin:openapi".data,
   "    props:".data,
   "      models: false".data,
   "      downloadLink: false".data,
   "    dependencies:".data,
   "      spec:".data,
   "        ref:".data,
   "          kind: openapi".data,
   "    ```".data]

-- ======================================================================================
-- The Publisher (`updateGitBookOpenAPIs` from `src/update.ts`)
-- ======================================================================================

/-- The HTTP calls the publisher can issue: a page of the listing request, a
DELETE of a slug, a PUT (upsert) of a slug. -/
inductive Call where
  | listReq
  | deleteReq (slug : Str)
  | putReq (slug : Str)
deriving DecidableEq

/-- The reserved slug namespace, `"hl-"`. -/
def hlPre : Str := "hl-".data

/-- The local spec set (`src/update.ts`, lines 234–241): one
`{slug, text}` entry per (section, method), slug `hl-{section}-{method}`,
sorted by slug. -/
def specEntries {δ : Type} (stringify : δ → Str) (m : OpenAPISpecs δ) :
    List (Str × Str) :=
  List.insertionSort (fun a b => lexLeRel a.1 b.1)
    ((m.info.map (fun e => (hlPre ++ "info".data ++ "-".data ++ e.1, stringify e.2)))
      ++ (m.exchange.map (fun e => (hlPre ++ "exchange".data ++ "-".data ++ e.1, stringify e.2))))

instance : DecidableRel (fun (a b : Str × Str) => lexLeRel a.1 b.1) :=
  fun a b => inferInstanceAs (Decidable (lexLe a.1 b.1 = true))

/-- The deletion phase (`src/update.ts`, lines 285–299): iterate the
prefix-filtered remote slugs; DELETE every one with no local counterpart;
a rejected DELETE (`delOk` false) aborts the run.  Returns the issued calls
and the remote store after the deletions (DELETE removes the slug). -/
def runDeletes (delOk : Str → Bool) (localSlugs : List Str) :
    List Str → List Str → Except Unit (List Call × List Str)
  | [], remote => .ok ([], remote)
  | s :: rest, remote =>
    if localSlugs.contains s then runDeletes delOk localSlugs rest remote
    else if delOk s then
      match runDeletes delOk localSlugs rest (remote.filter (fun r => r ≠ s)) with
      | .ok (calls, rem) => .ok (.deleteReq s :: calls, rem)
      | .error e => .error e
    else .error ()

/-- The upload phase (`src/update.ts`, lines 306–320): PUT every local entry
in order; a rejected PUT aborts the run.  PUT upserts the slug into the
remote store. -/
def runPuts (putOk : Str → Bool) :
    List (Str × Str) → List Str → Except Unit (List Call × List Str)
  | [], remote => .ok ([], remote)
  | e :: rest, remote =>
    if putOk e.1 then
      match runPuts putOk rest (if remote.contains e.1 then remote else remote ++ [e.1]) with
      | .ok (calls, rem) => .ok (.putReq e.1 :: calls, rem)
      | .error err => .error err
    else .error ()

/-- `updateGitBookOpenAPIs` from `src/update.ts` (lines 221–323), as a state
transformer over the remote slug store `remote0`.  The listing loop is
modelled by the server-chosen `pages` (the loop issues one request per page
and concatenates the items); `delOk`/`putOk` model which DELETE/PUT requests
the server answers with a success status — any failure aborts the run, as in
the source.  HTTP request bodies and logging are dropped; the serialized
document text (`JSON.stringify(spec)`) is produced by the opaque
`stringify`. -/
def updateGitBookOpenAPIs {δ : Type} (stringify : δ → Str) (m : OpenAPISpecs δ)
    (pages : List (List Str)) (delOk putOk : Str → Bool) (remote0 : List Str) :
    Except Unit (List Call × List Str) :=
  let specs := specEntries stringify m
  if specs.isEmpty then .ok ([], remote0)
  else
    let localSlugs := specs.map Prod.fst
    let remoteSlugs := pages.flatten.filter (fun s => hlPre.isPrefixOf s)
    match runDeletes delOk localSlugs remoteSlugs remote0 with
    | .error e => .error e
    | .ok (dCalls, r1) =>
      match runPuts putOk specs r1 with
      | .error e => .error e
      | .ok (pCalls, r2) => .ok ((pages.map (fun _ => Call.listReq)) ++ dCalls ++ pCalls, r2)

-- ======================================================================================
-- THEOREMS: generic helper lemmas
-- ======================================================================================

theorem take_pre {α : Type} (n : Nat) (l : List α) : l.take n <+: l :=
  ⟨l.drop n, List.take_append_drop n l⟩

theorem pre_of_append_of_le {α : Type} {p a b : List α}
    (h : p <+: a ++ b) (hl : p.length ≤ a.length) : p <+: a := by
  rw [List.prefix_iff_eq_take] at h
  rw [List.take_append_eq_append_take, Nat.sub_eq_zero_of_le hl, List.take_zero,
    List.append_nil] at h
  rw [h]
  exact take_pre _ _

theorem append_split_of_pre {α : Type} {p a b : List α}
    (h : p <+: a ++ b) (hl : a.length ≤ p.length) :
    a = p.take a.length ∧ p.drop a.length <+: b := by
  obtain ⟨t, ht⟩ := h
  have h1 : p.take a.length ++ (p.drop a.length ++ t) = a ++ b := by
    rw [← List.append_assoc, List.take_append_drop]; exact ht
  have h2 := List.append_inj h1 (by rw [List.length_take]; omega)
  exact ⟨h2.1.symm, ⟨t, h2.2⟩⟩

theorem occ_of_take {α : Type} {pat s : List α} {k m : Nat}
    (h : pat <+: (s.take k).drop m) : pat <+: s.drop m := by
  have h1 : (s.take k).drop m <+: s.drop m := by
    rw [List.drop_take]; exact take_pre _ _
  exact h.trans h1

theorem drop_append_ge {α : Type} {a b : List α} {p : Nat} (h : a.length ≤ p) :
    (a ++ b).drop p = b.drop (p - a.length) := by
  have hp : p = a.length + (p - a.length) := by omega
  conv_lhs => rw [hp]
  rw [List.drop_append]

-- ======================================================================================
-- THEOREMS: `strIndexOf` characterization
-- ======================================================================================

theorem strIndexOf_some_iff {pat : Str} (hpat : pat ≠ []) :
    ∀ (s : Str) (n : Nat),
      strIndexOf pat s = some n ↔
        (pat <+: s.drop n ∧ ∀ m, m < n → ¬ pat <+: s.drop m) := by
  intro s
  induction s with
  | nil =>
    intro n
    simp only [strIndexOf, if_neg hpat, List.drop_nil]
    constructor
    · intro h; exact absurd h (by simp)
    · rintro ⟨h, -⟩
      obtain ⟨t, ht⟩ := h
      exact absurd (List.append_eq_nil.mp ht).1 hpat
  | cons c cs ih =>
    intro n
    by_cases hp : pat <+: (c :: cs)
    · simp only [strIndexOf, if_pos hp]
      cases n with
      | zero =>
        simp only [List.drop_zero]
        constructor
        · intro _; exact ⟨hp, by omega⟩
        · intro _; trivial
      | succ k =>
        constructor
        · intro h; exact absurd h (by simp)
        · rintro ⟨-, hall⟩
          exact absurd hp (by simpa using hall 0 (by omega))
    · simp only [strIndexOf, if_neg hp]
      cases n with
      | zero =>
        constructor
        · intro h
          simp only [Option.map_eq_some'] at h
          obtain ⟨a, -, ha⟩ := h
          omega
        · rintro ⟨h, -⟩
          exact absurd (by simpa using h) hp
      | succ k =>
        constructor
        · intro h
          simp only [Option.map_eq_some'] at h
          obtain ⟨a, ha, hak⟩ := h
          have hk : a = k := by omega
          subst hk
          obtain ⟨h1, h2⟩ := (ih a).mp ha
          refine ⟨by simpa using h1, ?_⟩
          intro m hm
          cases m with
          | zero => simpa using hp
          | succ j =>
            have := h2 j (by omega)
            simpa using this
        · rintro ⟨h1, h2⟩
          have hcs : strIndexOf pat cs = some k := by
            rw [ih k]
            refine ⟨by simpa using h1, ?_⟩
            intro m hm
            have := h2 (m + 1) (by omega)
            simpa using this
          simp [hcs]

theorem strIndexOf_none_iff {pat : Str} (hpat : pat ≠ []) :
    ∀ (s : Str), strIndexOf pat s = none ↔ ∀ m, ¬ pat <+: s.drop m := by
  intro s
  induction s with
  | nil =>
    simp only [strIndexOf, if_neg hpat, List.drop_nil]
    constructor
    · intro _ m h
      obtain ⟨t, ht⟩ := h
      exact absurd (List.append_eq_nil.mp ht).1 hpat
    · intro _; trivial
  | cons c cs ih =>
    by_cases hp : pat <+: (c :: cs)
    · simp only [strIndexOf, if_pos hp]
      constructor
      · intro h; exact absurd h (by simp)
      · intro hall; exact absurd hp (by simpa using hall 0)
    · simp only [strIndexOf, if_neg hp, Option.map_eq_none']
      rw [ih]
      constructor
      · intro hall m
        cases m with
        | zero => simpa using hp
        | succ j => simpa using hall j
      · intro hall m
        have := hall (m + 1)
        simpa using this

theorem strIndexOfFrom_some_iff {pat : Str} (hpat : pat ≠ []) (s : Str) (k q : Nat) :
    strIndexOfFrom pat s k = some q ↔
      (k ≤ q ∧ pat <+: s.drop q ∧ ∀ m, k ≤ m → m < q → ¬ pat <+: s.drop m) := by
  unfold strIndexOfFrom
  constructor
  · intro h
    simp only [Option.map_eq_some'] at h
    obtain ⟨a, ha, hak⟩ := h
    obtain ⟨h1, h2⟩ := (strIndexOf_some_iff hpat _ a).mp ha
    rw [List.drop_drop] at h1
    refine ⟨by omega, by rwa [show k + a = q by omega] at h1, ?_⟩
    intro m hkm hmq
    have := h2 (m - k) (by omega)
    rw [List.drop_drop, show k + (m - k) = m by omega] at this
    exact this
  · rintro ⟨hkq, h1, h2⟩
    have : strIndexOf pat (s.drop k) = some (q - k) := by
      rw [strIndexOf_some_iff hpat]
      rw [List.drop_drop, show k + (q - k) = q by omega]
      refine ⟨h1, ?_⟩
      intro m hm
      rw [List.drop_drop]
      exact h2 (k + m) (by omega) (by omega)
    simp [this]; omega

theorem strIndexOfFrom_none_iff {pat : Str} (hpat : pat ≠ []) (s : Str) (k : Nat) :
    strIndexOfFrom pat s k = none ↔ ∀ m, k ≤ m → ¬ pat <+: s.drop m := by
  unfold strIndexOfFrom
  rw [Option.map_eq_none', strIndexOf_none_iff hpat]
  constructor
  · intro hall m hkm
    have := hall (m - k)
    rw [List.drop_drop, show k + (m - k) = m by omega] at this
    exact this
  · intro hall m
    rw [List.drop_drop]
    exact hall (k + m) (by omega)

-- ======================================================================================
-- THEOREMS: `trimEnd` lemmas
-- ======================================================================================

theorem trimEnd_append_of_exists {a b : Str} (h : ∃ c ∈ b, wsChar c = false) :
    trimEnd (a ++ b) = a ++ trimEnd b := by
  unfold trimEnd
  rw [List.reverse_append, List.dropWhile_append]
  have hne : (b.reverse.dropWhile wsChar).isEmpty = false := by
    rw [List.isEmpty_eq_false]
    intro hnil
    rw [List.dropWhile_eq_nil_iff] at hnil
    obtain ⟨c, hc, hw⟩ := h
    have := hnil c (by simpa using hc)
    rw [this] at hw
    exact absurd hw (by simp)
  rw [hne]
  simp

theorem trimEnd_concat_ws {a : Str} {c : Char} (h : wsChar c = true) :
    trimEnd (a ++ [c]) = trimEnd a := by
  unfold trimEnd
  rw [List.reverse_append]
  simp [List.dropWhile_cons, h]

theorem dropWhile_dropWhile_self {α : Type} (p : α → Bool) (l : List α) :
    List.dropWhile p (List.dropWhile p l) = List.dropWhile p l := by
  induction l with
  | nil => rfl
  | cons c cs ih =>
    rw [List.dropWhile_cons]
    by_cases hc : p c = true
    · rw [if_pos hc]; exact ih
    · rw [if_neg hc, List.dropWhile_cons, if_neg hc]

theorem trimEnd_trimEnd (s : Str) : trimEnd (trimEnd s) = trimEnd s := by
  unfold trimEnd
  rw [List.reverse_reverse, dropWhile_dropWhile_self]

theorem trimEnd_pre (s : Str) : trimEnd s <+: s := by
  refine ⟨(s.reverse.takeWhile wsChar).reverse, ?_⟩
  unfold trimEnd
  rw [← List.reverse_append, List.takeWhile_append_dropWhile, List.reverse_reverse]

theorem trimEnd_cons_of_not_ws {c : Char} (h : wsChar c = false) (r : Str) :
    trimEnd (c :: r) = c :: trimEnd r := by
  unfold trimEnd
  rw [show (c :: r : Str) = [c] ++ r from rfl, List.reverse_append, List.dropWhile_append]
  by_cases he : (r.reverse.dropWhile wsChar).isEmpty = true
  · rw [if_pos he]
    rw [List.isEmpty_iff] at he
    rw [he]
    simp [List.dropWhile_cons, h]
  · rw [if_neg he]
    simp

-- ======================================================================================
-- THEOREMS
-- ======================================================================================

/-- C10: the response-name normalization only rewrites names with a non-empty
stem before the suffix; the exact name `"SuccessResponse"` is returned
unchanged (the regex `(.+)SuccessResponse$` needs at least one stem
character), not rewritten to `"Response"`. -/
theorem normalize_bare_success_response_unchanged :
    normalizeResponseName "SuccessResponse".data = "SuccessResponse".data := by
  decide

/-- C9: the OpenAPI-assembly functions of the two source versions are
extensionally equal: for every converter and every input schema map,
`jsonSchemasToOpenAPIs` from `src/update.ts` and from `src/unnamed/part_000`
produce identical output maps. -/
theorem jsonSchemasToOpenAPIs_versions_equal :
    ∀ (conv : JValue → JValue) (schemas : AllSchemas),
      UpdateTs.jsonSchemasToOpenAPIs conv schemas = Part000.jsonSchemasToOpenAPIs conv schemas :=
  fun _ _ => rfl

-- ======================================================================================
-- THEOREMS: response-name normalization (C3)
-- ======================================================================================

theorem normalize_eq_self_of_no_suffix {t : Str} (h : ¬ sucRespSuffix <:+ t) :
    normalizeResponseName t = t := by
  unfold normalizeResponseName
  rw [if_neg]
  exact fun hc => h hc.1

/-- C3 (counterexample): `"XSuccessResponse"` is an output of the
normalization (it is the image of `"XSuccessSuccessResponse"`), yet
normalizing it again changes it to `"XResponse"` — so the normalization is
not idempotent on its own range. -/
theorem normalize_idempotent_counterexample :
    normalizeResponseName "XSuccessSuccessResponse".data = "XSuccessResponse".data ∧
    normalizeResponseName "XSuccessResponse".data ≠ "XSuccessResponse".data := by
  constructor
  · decide
  · decide

/-- C3 (amended): the response-name normalization is a no-op on every name
that does not still end in `SuccessResponse` after normalizing; in particular
`"PlaceOrderResponse"` maps to `"PlaceOrderResponse"`. -/
theorem normalize_idempotent_amended (s : Str)
    (h : ¬ sucRespSuffix <:+ normalizeResponseName s) :
    normalizeResponseName (normalizeResponseName s) = normalizeResponseName s ∧
    normalizeResponseName "PlaceOrderResponse".data = "PlaceOrderResponse".data :=
  ⟨normalize_eq_self_of_no_suffix h, by decide⟩

/-- C3 (witness): the amended idempotence at the concrete name
`"PlaceOrderSuccessResponse"`. -/
theorem normalize_idempotent_witness :
    normalizeResponseName (normalizeResponseName "PlaceOrderSuccessResponse".data)
      = normalizeResponseName "PlaceOrderSuccessResponse".data ∧
    normalizeResponseName "PlaceOrderResponse".data = "PlaceOrderResponse".data :=
  normalize_idempotent_amended "PlaceOrderSuccessResponse".data (by decide)

-- ======================================================================================
-- THEOREMS: the Publisher (C1, C2)
-- ======================================================================================

theorem contains_iff_mem_str {l : List Str} {s : Str} : l.contains s = true ↔ s ∈ l := by
  simp [List.contains]

/-- C2: on an assembled document map with no (endpoint, method) entries at
all, the publisher returns successfully having issued zero HTTP calls (no
list page, no DELETE, no PUT), for every server behaviour and every initial
remote store. -/
theorem publisher_empty_map_zero_calls :
    ∀ (δ : Type) (stringify : δ → Str) (pages : List (List Str))
      (delOk putOk : Str → Bool) (remote0 : List Str),
      updateGitBookOpenAPIs stringify ⟨[], []⟩ pages delOk putOk remote0 = .ok ([], remote0) := by
  intro δ stringify pages delOk putOk remote0
  rfl

theorem runDeletes_ok (delOk : Str → Bool) (L : List Str) :
    ∀ (rs remote : List Str) (calls : List Call) (rem : List Str),
      runDeletes delOk L rs remote = .ok (calls, rem) →
      ((∀ s, Call.deleteReq s ∈ calls ↔ (s ∈ rs ∧ s ∉ L)) ∧
       (∀ c ∈ calls, ∃ s, c = Call.deleteReq s) ∧
       (∀ x, x ∈ rem ↔ (x ∈ remote ∧ ¬(x ∈ rs ∧ x ∉ L)))) := by
  intro rs
  induction rs with
  | nil =>
    intro remote calls rem h
    simp only [runDeletes, Except.ok.injEq, Prod.mk.injEq] at h
    obtain ⟨hc, hr⟩ := h
    subst hc; subst hr
    refine ⟨by simp, by simp, by simp⟩
  | cons s rest ih =>
    intro remote calls rem h
    simp only [runDeletes] at h
    by_cases hmem : L.contains s = true
    · rw [if_pos hmem] at h
      have hs : s ∈ L := contains_iff_mem_str.mp hmem
      obtain ⟨h1, h2, h3⟩ := ih remote calls rem h
      refine ⟨?_, h2, ?_⟩
      · intro t
        rw [h1 t]
        constructor
        · rintro ⟨ht, htL⟩; exact ⟨List.mem_cons_of_mem _ ht, htL⟩
        · rintro ⟨ht, htL⟩
          rcases List.mem_cons.mp ht with h' | h'
          · subst h'; exact absurd hs htL
          · exact ⟨h', htL⟩
      · intro x
        rw [h3 x]
        constructor
        · rintro ⟨hx, hnx⟩
          refine ⟨hx, ?_⟩
          rintro ⟨hx1, hx2⟩
          rcases List.mem_cons.mp hx1 with h' | h'
          · subst h'; exact hx2 hs
          · exact hnx ⟨h', hx2⟩
        · rintro ⟨hx, hnx⟩
          exact ⟨hx, fun hab => hnx ⟨List.mem_cons_of_mem _ hab.1, hab.2⟩⟩
    · rw [if_neg hmem] at h
      have hsL : s ∉ L := fun hs => hmem (contains_iff_mem_str.mpr hs)
      by_cases hd : delOk s = true
      · rw [if_pos hd] at h
        cases heq : runDeletes delOk L rest (remote.filter (fun r => r ≠ s)) with
        | error e => rw [heq] at h; exact absurd h (by simp)
        | ok pr =>
          obtain ⟨cs, rm⟩ := pr
          rw [heq] at h
          simp only [Except.ok.injEq, Prod.mk.injEq] at h
          obtain ⟨hc, hr⟩ := h
          subst hc; subst hr
          obtain ⟨h1, h2, h3⟩ := ih _ cs rm heq
          refine ⟨?_, ?_, ?_⟩
          · intro t
            simp only [List.mem_cons]
            constructor
            · rintro (he | hin)
              · have ht : t = s := by injection he
                subst ht
                exact ⟨Or.inl rfl, hsL⟩
              · obtain ⟨a, b⟩ := (h1 t).mp hin
                exact ⟨Or.inr a, b⟩
            · rintro ⟨ht, htL⟩
              rcases ht with h' | h'
              · subst h'; exact Or.inl rfl
              · exact Or.inr ((h1 t).mpr ⟨h', htL⟩)
          · intro c hc
            rcases List.mem_cons.mp hc with h' | h'
            · exact ⟨s, h'⟩
            · exact h2 c h'
          · intro x
            rw [h3 x, List.mem_filter]
            constructor
            · rintro ⟨⟨hx, hxs⟩, hnx⟩
              have hxs' : x ≠ s := by simpa using hxs
              refine ⟨hx, ?_⟩
              rintro ⟨h1', h2'⟩
              rcases List.mem_cons.mp h1' with h' | h'
              · exact hxs' h'
              · exact hnx ⟨h', h2'⟩
            · rintro ⟨hx, hnx⟩
              by_cases hxs : x = s
              · subst hxs
                exact absurd ⟨List.mem_cons_self _ _, hsL⟩ hnx
              · exact ⟨⟨hx, by simpa using hxs⟩,
                  fun hab => hnx ⟨List.mem_cons_of_mem _ hab.1, hab.2⟩⟩
      · rw [if_neg hd] at h
        exact absurd h (by simp)

theorem runPuts_ok (putOk : Str → Bool) :
    ∀ (entries : List (Str × Str)) (remote : List Str) (calls : List Call) (rem : List Str),
      runPuts putOk entries remote = .ok (calls, rem) →
      ((∀ c ∈ calls, ∃ s, c = Call.putReq s) ∧
       (∀ x, x ∈ rem ↔ (x ∈ remote ∨ x ∈ entries.map Prod.fst))) := by
  intro entries
  induction entries with
  | nil =>
    intro remote calls rem h
    simp only [runPuts, Except.ok.injEq, Prod.mk.injEq] at h
    obtain ⟨hc, hr⟩ := h
    subst hc; subst hr
    refine ⟨by simp, by simp⟩
  | cons e rest ih =>
    intro remote calls rem h
    simp only [runPuts] at h
    by_cases hp : putOk e.1 = true
    · rw [if_pos hp] at h
      cases heq : runPuts putOk rest (if remote.contains e.1 = true then remote else remote ++ [e.1]) with
      | error err => rw [heq] at h; exact absurd h (by simp)
      | ok pr =>
        obtain ⟨cs, rm⟩ := pr
        rw [heq] at h
        simp only [Except.ok.injEq, Prod.mk.injEq] at h
        obtain ⟨hc, hr⟩ := h
        subst hc; subst hr
        obtain ⟨h1, h2⟩ := ih _ cs rm heq
        refine ⟨?_, ?_⟩
        · intro c hc
          rcases List.mem_cons.mp hc with h' | h'
          · exact ⟨e.1, h'⟩
          · exact h1 c h'
        · intro x
          rw [h2 x]
          have hup : (x ∈ (if remote.contains e.1 = true then remote else remote ++ [e.1]))
              ↔ (x ∈ remote ∨ x = e.1) := by
            by_cases hc : remote.contains e.1 = true
            · rw [if_pos hc]
              have he : e.1 ∈ remote := contains_iff_mem_str.mp hc
              constructor
              · exact Or.inl
              · rintro (h' | h')
                · exact h'
                · rw [h']; exact he
            · rw [if_neg hc]
              simp
          rw [hup]
          simp only [List.map_cons, List.mem_cons]
          tauto
    · rw [if_neg hp] at h
      exact absurd h (by simp)

theorem isPrefixOf_append_self : ∀ (a r : Str), a.isPrefixOf (a ++ r) = true := by
  intro a
  induction a with
  | nil => intro r; simp [List.isPrefixOf]
  | cons c cs ih => intro r; simp [List.isPrefixOf, ih]

theorem specEntries_keys_hl {δ : Type} (stringify : δ → Str) (m : OpenAPISpecs δ) :
    ∀ p ∈ (specEntries stringify m).map Prod.fst, hlPre.isPrefixOf p = true := by
  intro p hp
  rw [List.mem_map] at hp
  obtain ⟨e, he, hep⟩ := hp
  unfold specEntries at he
  rw [List.mem_insertionSort, List.mem_append] at he
  rcases he with h | h <;>
  · rw [List.mem_map] at h
    obtain ⟨a, _, ha⟩ := h
    subst ha
    simp only at hep
    subst hep
    rw [List.append_assoc, List.append_assoc]
    exact isPrefixOf_append_self _ _

/-- C1 (counterexample to the claim as stated): with an empty local map
(`L = ∅`) and remote store `R = {"hl-x"}`, the run completes successfully but
issues no DELETE call even though `R \ L = {"hl-x"}` is non-empty, and the
final remote store restricted to the reserved namespace is `{"hl-x"} ≠ L`
(the source returns before the listing when the local set is empty). -/
theorem publisher_reconciliation_counterexample :
    updateGitBookOpenAPIs (fun _ : Unit => ([] : Str)) ⟨[], []⟩ [["hl-x".data]]
        (fun _ => true) (fun _ => true) ["hl-x".data] = .ok ([], ["hl-x".data]) ∧
    (specEntries (fun _ : Unit => ([] : Str)) ⟨[], []⟩).map Prod.fst = [] ∧
    ["hl-x".data].filter (fun s => hlPre.isPrefixOf s) = ["hl-x".data] := by
  refine ⟨rfl, rfl, by decide⟩

/-- C1 (amended): for every *non-empty* local spec set, if a run of the
publisher over an honestly-paged listing of the remote store completes
without error, then the DELETE calls are issued for exactly the reserved
slugs of the remote store with no local counterpart (`R \ L`, both restricted
to the `hl-` namespace), and afterwards the remote store restricted to the
reserved namespace equals the local slug set `L`. -/
theorem publisher_reconciliation_amended
    {δ : Type} (stringify : δ → Str) (m : OpenAPISpecs δ) (pages : List (List Str))
    (delOk putOk : Str → Bool) (trace : List Call) (final : List Str)
    (hne : specEntries stringify m ≠ [])
    (hrun : updateGitBookOpenAPIs stringify m pages delOk putOk pages.flatten
              = .ok (trace, final)) :
    (∀ s, Call.deleteReq s ∈ trace ↔
      (s ∈ pages.flatten ∧ hlPre.isPrefixOf s = true ∧
       s ∉ (specEntries stringify m).map Prod.fst)) ∧
    (∀ s, (s ∈ final ∧ hlPre.isPrefixOf s = true) ↔
      s ∈ (specEntries stringify m).map Prod.fst) := by
  unfold updateGitBookOpenAPIs at hrun
  simp only [List.isEmpty_eq_false.mpr hne, Bool.false_eq_true, if_false] at hrun
  cases hdel : runDeletes delOk ((specEntries stringify m).map Prod.fst)
      ((pages.flatten).filter (fun s => hlPre.isPrefixOf s)) pages.flatten with
  | error e => rw [hdel] at hrun; exact absurd hrun (by simp)
  | ok pr1 =>
    obtain ⟨dCalls, r1⟩ := pr1
    rw [hdel] at hrun
    dsimp only at hrun
    cases hput : runPuts putOk (specEntries stringify m) r1 with
    | error e => rw [hput] at hrun; exact absurd hrun (by simp)
    | ok pr2 =>
      obtain ⟨pCalls, r2⟩ := pr2
      rw [hput] at hrun
      dsimp only at hrun
      simp only [Except.ok.injEq, Prod.mk.injEq] at hrun
      obtain ⟨htr, hfin⟩ := hrun
      subst htr; subst hfin
      obtain ⟨hd1, hd2, hd3⟩ := runDeletes_ok delOk _ _ _ _ _ hdel
      obtain ⟨hp1, hp2⟩ := runPuts_ok putOk _ _ _ _ hput
      constructor
      · intro s
        constructor
        · intro hmem
          rcases List.mem_append.mp hmem with h' | h'
          · rcases List.mem_append.mp h' with h'' | h''
            · rw [List.mem_map] at h''
              obtain ⟨a, -, ha⟩ := h''
              exact absurd ha (by simp)
            · have := (hd1 s).mp h''
              rw [List.mem_filter] at this
              exact ⟨this.1.1, this.1.2, this.2⟩
          · obtain ⟨t, ht⟩ := hp1 _ h'
            exact absurd ht (by simp)
        · rintro ⟨hflat, hhl, hnl⟩
          refine List.mem_append.mpr (Or.inl (List.mem_append.mpr (Or.inr ?_)))
          exact (hd1 s).mpr ⟨List.mem_filter.mpr ⟨hflat, hhl⟩, hnl⟩
      · intro s
        constructor
        · rintro ⟨hmem, hhl⟩
          rcases (hp2 s).mp hmem with h' | h'
          · have := (hd3 s).mp h'
            obtain ⟨hflat, hnd⟩ := this
            by_cases hL : s ∈ (specEntries stringify m).map Prod.fst
            · exact hL
            · exact absurd ⟨List.mem_filter.mpr ⟨hflat, hhl⟩, hL⟩ hnd
          · exact h'
        · intro hL
          exact ⟨(hp2 s).mpr (Or.inr hL), specEntries_keys_hl stringify m s hL⟩

/-- C1 (witness): the amended reconciliation at the end-to-end scenario of
the spec: local `{hl-info-allMids, hl-info-meta}`, remote
`{hl-info-allMids, hl-info-obsoleteOp, other}` — one deletion
(`hl-info-obsoleteOp`), and a final reserved-namespace remote equal to the
local set. -/
theorem publisher_reconciliation_witness :
    (Call.deleteReq "hl-info-obsoleteOp".data ∈
      (([Call.listReq, Call.deleteReq "hl-info-obsoleteOp".data,
         Call.putReq "hl-info-allMids".data, Call.putReq "hl-info-meta".data] : List Call)) ↔
      ("hl-info-obsoleteOp".data ∈
          ([["hl-info-allMids".data, "hl-info-obsoleteOp".data, "other".data]] :
            List (List Str)).flatten ∧
        hlPre.isPrefixOf "hl-info-obsoleteOp".data = true ∧
        "hl-info-obsoleteOp".data ∉
          (specEntries (fun _ : Unit => ([] : Str))
            ⟨[("allMids".data, ()), ("meta".data, ())], []⟩).map Prod.fst)) := by
  have h := publisher_reconciliation_amended (fun _ : Unit => ([] : Str))
    ⟨[("allMids".data, ()), ("meta".data, ())], []⟩
    [["hl-info-allMids".data, "hl-info-obsoleteOp".data, "other".data]]
    (fun _ => true) (fun _ => true)
    [Call.listReq, Call.deleteReq "hl-info-obsoleteOp".data,
     Call.putReq "hl-info-allMids".data, Call.putReq "hl-info-meta".data]
    ["hl-info-allMids".data, "other".data, "hl-info-meta".data]
    (by decide) (by rfl)
  exact h.1 "hl-info-obsoleteOp".data

-- ======================================================================================
-- THEOREMS: the Schema Resolver (C4, C5)
-- ======================================================================================

/-- C4: the request schema reference is resolved by first trying
`{Capitalized(op)}Request`; only when that name is absent from the symbol
table is `{Capitalized(op)}{Capitalized(endpoint)}Request` tried; when
neither is present the resolver raises `NotFoundError`.  In particular, for
method `"order"` in category `"exchange"`, the fallback candidate is
`"OrderExchangeRequest"`. -/
theorem request_resolution_order (docNodes : List DocNode) (op ep : Str) :
    (∀ n, docNodes.find?
        (fun nd => nd.name == replaceFirstCharToUpperCase op ++ "Request".data) = some n →
      findRequestNode docNodes (replaceFirstCharToUpperCase op)
        (replaceFirstCharToUpperCase ep) = some n) ∧
    (docNodes.find?
        (fun nd => nd.name == replaceFirstCharToUpperCase op ++ "Request".data) = none →
      findRequestNode docNodes (replaceFirstCharToUpperCase op)
          (replaceFirstCharToUpperCase ep)
        = docNodes.find? (fun nd => nd.name ==
            replaceFirstCharToUpperCase op ++ replaceFirstCharToUpperCase ep ++ "Request".data)) ∧
    (∀ fn, docNodes.find? (fun n => n.name == op && n.kind == "function".data) = some fn →
      findRequestNode docNodes (replaceFirstCharToUpperCase op)
        (replaceFirstCharToUpperCase ep) = none →
      extractFunctionSchema docNodes op ep = .error .NotFoundError) ∧
    replaceFirstCharToUpperCase "order".data ++ replaceFirstCharToUpperCase "exchange".data
        ++ "Request".data = "OrderExchangeRequest".data := by
  refine ⟨?_, ?_, ?_, by decide⟩
  · intro n h
    unfold findRequestNode
    rw [h]
  · intro h
    unfold findRequestNode
    rw [h]
  · intro fn hfn hreq
    unfold extractFunctionSchema
    rw [hfn]
    dsimp only
    rw [hreq]

/-- C4 (witness): with a symbol table containing only
`OrderExchangeRequest`, resolving method `"order"` in category `"exchange"`
falls back to that node. -/
theorem request_resolution_witness :
    findRequestNode [⟨"OrderExchangeRequest".data, "variable".data, none, none⟩]
      (replaceFirstCharToUpperCase "order".data) (replaceFirstCharToUpperCase "exchange".data)
      = some ⟨"OrderExchangeRequest".data, "variable".data, none, none⟩ := by
  have h := (request_resolution_order
    [⟨"OrderExchangeRequest".data, "variable".data, none, none⟩]
    "order".data "exchange".data).2.1 (by rfl)
  rw [h]
  rfl

/-- C5 (counterexample): the resolver does not require the asynchronous
wrapper to have *exactly one* named type parameter: on a symbol table where
neither `GetResponse` nor `GetInfoResponse` exists and the function's return
type is a `Promise` with two type parameters, the run succeeds (using the
first parameter's name) instead of failing. -/
theorem response_resolution_counterexample :
    extractFunctionSchema c5nodes "get".data "info".data
      = .ok ⟨"GetRequest".data, "Foo".data, none⟩ := by
  rfl

/-- C5 (amended): when neither `{Fn}Response` nor `{Fn}{Endpoint}Response`
resolves, the resolver requires the declared return type to be a `Promise`
with at least one type parameter whose *first* parameter is a named type
reference, and uses that first name; it raises `InvalidReturnTypeError` when
the return type is not such a wrapper, `NotFoundError` when the candidate
name is empty or resolves to no node, and on success returns both the request
and the (normalized) response reference — never a partial result, and never
any error other than these two kinds. -/
theorem response_resolution_characterization
    (docNodes : List DocNode) (op ep : Str) (fn rn : DocNode)
    (hfn : docNodes.find? (fun n => n.name == op && n.kind == "function".data) = some fn)
    (hreq : findRequestNode docNodes (replaceFirstCharToUpperCase op)
              (replaceFirstCharToUpperCase ep) = some rn)
    (hr1 : docNodes.find? (fun n => n.name ==
             replaceFirstCharToUpperCase op ++ "Response".data) = none)
    (hr2 : docNodes.find? (fun n => n.name ==
             replaceFirstCharToUpperCase op ++ replaceFirstCharToUpperCase ep
               ++ "Response".data) = none) :
    ((fn.returnType = none →
        extractFunctionSchema docNodes op ep = .error .InvalidReturnTypeError) ∧
     (fn.returnType = some .other →
        extractFunctionSchema docNodes op ep = .error .InvalidReturnTypeError) ∧
     (∀ tn tps, fn.returnType = some (.typeRef tn tps) → tn ≠ "Promise".data →
        extractFunctionSchema docNodes op ep = .error .InvalidReturnTypeError) ∧
     (fn.returnType = some (.typeRef "Promise".data none) →
        extractFunctionSchema docNodes op ep = .error .InvalidReturnTypeError) ∧
     (fn.returnType = some (.typeRef "Promise".data (some [])) →
        extractFunctionSchema docNodes op ep = .error .InvalidReturnTypeError) ∧
     (∀ rest, fn.returnType = some (.typeRef "Promise".data (some (.other :: rest))) →
        extractFunctionSchema docNodes op ep = .error .InvalidReturnTypeError) ∧
     (∀ pps rest, fn.returnType = some (.typeRef "Promise".data
          (some (.typeRef [] pps :: rest))) →
        extractFunctionSchema docNodes op ep = .error .NotFoundError) ∧
     (∀ ptn pps rest, fn.returnType = some (.typeRef "Promise".data
          (some (.typeRef ptn pps :: rest))) → ptn ≠ [] →
        docNodes.find? (fun n => n.name == ptn) = none →
        extractFunctionSchema docNodes op ep = .error .NotFoundError) ∧
     (∀ ptn pps rest pn, fn.returnType = some (.typeRef "Promise".data
          (some (.typeRef ptn pps :: rest))) → ptn ≠ [] →
        docNodes.find? (fun n => n.name == ptn) = some pn →
        extractFunctionSchema docNodes op ep
          = .ok ⟨rn.name, normalizeResponseName pn.name, exampleOf fn⟩) ∧
     ((∃ r, extractFunctionSchema docNodes op ep = .ok r) ∨
       extractFunctionSchema docNodes op ep = .error .NotFoundError ∨
       extractFunctionSchema docNodes op ep = .error .InvalidReturnTypeError)) := by
  have hbase : ∀ rt, fn.returnType = rt →
      extractFunctionSchema docNodes op ep =
        (match findResponseNode docNodes fn (replaceFirstCharToUpperCase op)
            (replaceFirstCharToUpperCase ep) with
         | .error e => .error e
         | .ok responseNode =>
             .ok ⟨rn.name, normalizeResponseName responseNode.name, exampleOf fn⟩) := by
    intro rt _
    unfold extractFunctionSchema
    rw [hfn]
    dsimp only
    rw [hreq]
  have hresp : ∀ rt, fn.returnType = rt →
      findResponseNode docNodes fn (replaceFirstCharToUpperCase op)
          (replaceFirstCharToUpperCase ep) =
        (match rt with
         | some (.typeRef tn tps) =>
           if tn = "Promise".data then
             match tps with
             | none => .error .InvalidReturnTypeError
             | some [] => .error .InvalidReturnTypeError
             | some (p :: _) =>
               match p with
               | .typeRef ptn _ =>
                 if ptn = [] then .error .NotFoundError
                 else
                   match docNodes.find? (fun n => n.name == ptn) with
                   | some n => .ok n
                   | none => .error .NotFoundError
               | .other => .error .InvalidReturnTypeError
           else .error .InvalidReturnTypeError
         | _ => .error .InvalidReturnTypeError) := by
    intro rt hrt
    unfold findResponseNode
    rw [hr1, hr2, hrt]
  refine ⟨?_, ?_, ?_, ?_, ?_, ?_, ?_, ?_, ?_, ?_⟩
  · intro hrt
    rw [hbase _ hrt, hresp _ hrt]
  · intro hrt
    rw [hbase _ hrt, hresp _ hrt]
  · intro tn tps hrt htn
    rw [hbase _ hrt, hresp _ hrt]
    try dsimp only
    rw [if_neg htn]
  · intro hrt
    rw [hbase _ hrt, hresp _ hrt]
    rfl
  · intro hrt
    rw [hbase _ hrt, hresp _ hrt]
    rfl
  · intro rest hrt
    rw [hbase _ hrt, hresp _ hrt]
    rfl
  · intro pps rest hrt
    rw [hbase _ hrt, hresp _ hrt]
    rfl
  · intro ptn pps rest hrt hptn hfind
    rw [hbase _ hrt, hresp _ hrt]
    try dsimp only
    try rw [if_pos rfl]
    try dsimp only
    rw [if_neg hptn, hfind]
  · intro ptn pps rest pn hrt hptn hfind
    rw [hbase _ hrt, hresp _ hrt]
    try dsimp only
    try rw [if_pos rfl]
    try dsimp only
    rw [if_neg hptn, hfind]
  · rcases hr : extractFunctionSchema docNodes op ep with e | r
    · cases e with
      | NotFoundError => exact Or.inr (Or.inl rfl)
      | InvalidReturnTypeError => exact Or.inr (Or.inr rfl)
    · exact Or.inl ⟨r, rfl⟩

/-- C5 (witness): the amended characterization at a concrete symbol table —
the last-resort resolution through `Promise<FooSuccessResponse>` succeeds and
the result carries both references, the response one normalized. -/
theorem response_resolution_witness :
    extractFunctionSchema c5wnodes "get".data "info".data
      = .ok ⟨"GetRequest".data, "FooResponse".data, none⟩ := by
  have h := (response_resolution_characterization c5wnodes "get".data "info".data
    c5wfn ⟨"GetRequest".data, "variable".data, none, none⟩
    (by rfl) (by rfl) (by rfl) (by rfl)).2.2.2.2.2.2.2.2.1
    "FooSuccessResponse".data none []
    ⟨"FooSuccessResponse".data, "variable".data, none, none⟩
    (by rfl) (by decide) (by rfl)
  rw [h]
  rfl

-- ======================================================================================
-- THEOREMS: the OpenAPI assembler (C6)
-- ======================================================================================

/-- C6: every document assembled for the `info` category carries a `"500"`
entry in its responses object; no document assembled for the `exchange`
category does — for every converter, schema map, method and document. -/
theorem info_has_500_exchange_not
    (conv : JValue → JValue) (schemas : AllSchemas) (mth : Str) (doc : JValue) :
    (((mth, doc) ∈ (UpdateTs.jsonSchemasToOpenAPIs conv schemas).info) →
       has500 .info doc = true) ∧
    (((mth, doc) ∈ (UpdateTs.jsonSchemasToOpenAPIs conv schemas).exchange) →
       has500 .exchange doc = false) := by
  constructor
  · intro hmem
    simp only [UpdateTs.jsonSchemasToOpenAPIs] at hmem
    rw [List.mem_map] at hmem
    obtain ⟨e, -, heq⟩ := hmem
    have hd : doc = UpdateTs.buildSpec conv .info e.1 e.2 :=
      ((Prod.mk.injEq _ _ _ _).mp heq).2.symm
    rw [hd]
    rfl
  · intro hmem
    simp only [UpdateTs.jsonSchemasToOpenAPIs] at hmem
    rw [List.mem_map] at hmem
    obtain ⟨e, -, heq⟩ := hmem
    have hd : doc = UpdateTs.buildSpec conv .exchange e.1 e.2 :=
      ((Prod.mk.injEq _ _ _ _).mp heq).2.symm
    rw [hd]
    rfl

/-- C6 (witness): the `500` asymmetry at a concrete one-method-per-category
schema map with the identity converter. -/
theorem info_500_witness :
    has500 .info
        (UpdateTs.buildSpec (fun v => v) .info "allMids".data ⟨.jnull, .jnull⟩) = true ∧
    has500 .exchange
        (UpdateTs.buildSpec (fun v => v) .exchange "order".data ⟨.jnull, .jnull⟩) = false := by
  constructor
  · exact (info_has_500_exchange_not (fun v => v)
      ⟨[("allMids".data, ⟨.jnull, .jnull⟩)], [("order".data, ⟨.jnull, .jnull⟩)]⟩
      "allMids".data _).1 (List.Mem.head _)
  · exact (info_has_500_exchange_not (fun v => v)
      ⟨[("allMids".data, ⟨.jnull, .jnull⟩)], [("order".data, ⟨.jnull, .jnull⟩)]⟩
      "order".data _).2 (List.Mem.head _)

-- ======================================================================================
-- THEOREMS: occurrence and body-structure lemmas for the ToC updater
-- ======================================================================================

theorem nlPat_ne_nil : nlHeaderPat ≠ [] := by decide

theorem apiHeader_ne_nil : apiHeader ≠ [] := by decide

theorem noOcc_of_contains_false {pat s : Str} (hpat : pat ≠ [])
    (h : containsPat pat s = false) : noOcc pat s := by
  intro p
  unfold containsPat at h
  cases hidx : strIndexOf pat s with
  | none => exact (strIndexOf_none_iff hpat s).mp hidx p
  | some n => rw [hidx] at h; exact absurd h (by simp)

theorem noOcc_of_pre {pat s X : Str} (hs : noOcc pat s) (hX : X <+: s) : noOcc pat X := by
  intro p hp
  rw [List.prefix_iff_eq_take] at hX
  rw [hX] at hp
  exact hs p (occ_of_take hp)

theorem noOcc_append_left_no_nl {a mth : Str}
    (ha : ∀ c ∈ a, ¬ c = '\n') (hm : noOcc nlHeaderPat mth) :
    noOcc nlHeaderPat (a ++ mth) := by
  intro p hp
  by_cases hpa : p < a.length
  · rw [List.drop_append_of_le_length (by omega)] at hp
    have hne : a.drop p ≠ [] := by
      intro hnil
      have := congrArg List.length hnil
      simp at this
      omega
    cases hd : a.drop p with
    | nil => exact hne hd
    | cons c cs =>
      rw [hd] at hp
      have hnl : nlHeaderPat = '\n' :: "## ".data := by decide
      rw [hnl, List.cons_append, List.cons_prefix_cons] at hp
      have hc : c ∈ a := List.mem_of_mem_drop (hd ▸ List.mem_cons_self _ _)
      exact ha c hc hp.1.symm
  · rw [drop_append_ge (by omega)] at hp
    exact hm _ hp

theorem noOcc_concat_nl {s : Str} (hs : noOcc nlHeaderPat s) :
    noOcc nlHeaderPat (s ++ ['\n']) := by
  intro p hp
  by_cases hps : p ≤ s.length
  · rw [List.drop_append_of_le_length hps] at hp
    rcases List.prefix_concat_iff.mp hp with h | h
    · have h1 : nlHeaderPat.getLast? = some ' ' := by decide
      have h2 : (s.drop p ++ ['\n']).getLast? = some '\n' := List.getLast?_concat _
      rw [h] at h1
      rw [h1] at h2
      exact absurd (Option.some.injEq _ _ ▸ h2) (by simp)
    · exact hs p h
  · rw [drop_append_ge (by omega)] at hp
    have : (['\n'] : Str).drop (p - s.length) = [] := by
      apply List.drop_of_length_le
      simp
      omega
    rw [this] at hp
    obtain ⟨t, ht⟩ := hp
    exact nlPat_ne_nil (List.append_eq_nil.mp ht).1

theorem joinSep_cons_cons (sep a b : Str) (t : List Str) :
    joinSep sep (a :: b :: t) = a ++ sep ++ joinSep sep (b :: t) := rfl

theorem joinSep_single (sep l : Str) : joinSep sep [l] = l := rfl

theorem joinSep_concat_nil_ends :
    ∀ ls : List Str, ls ≠ [] → ∃ b, joinSep "\n".data (ls ++ [[]]) = b ++ ['\n'] := by
  intro ls
  induction ls with
  | nil => intro h; exact absurd rfl h
  | cons a t ih =>
    intro _
    cases t with
    | nil =>
      refine ⟨a, ?_⟩
      rw [show ([a] ++ [([] : Str)]) = [a, []] from rfl, joinSep_cons_cons,
        joinSep_single]
      simp
    | cons b t' =>
      obtain ⟨w, hw⟩ := ih (by simp)
      refine ⟨a ++ "\n".data ++ w, ?_⟩
      rw [show ((a :: b :: t') ++ [([] : Str)]) = a :: ((b :: t') ++ [[]]) from rfl]
      rw [show ((b :: t') ++ [([] : Str)]) = b :: (t' ++ [[]]) from rfl] at hw ⊢
      rw [joinSep_cons_cons, hw]
      simp [List.append_assoc]

theorem summaryLines_eq {δ : Type} (m : OpenAPISpecs δ) :
    summaryLines m = "## API".data :: [] ::
      ((sortStrs sectionKeys).flatMap (fun s => summarySectionLines s (sectionMethods m s))
        ++ [[]]) := by
  unfold summaryLines
  simp

theorem summaryBody_head {δ : Type} (m : OpenAPISpecs δ) :
    ∃ rest, summaryBody m = "## API".data ++ '\n' :: rest := by
  unfold summaryBody
  rw [summaryLines_eq]
  rw [joinSep_cons_cons]
  exact ⟨joinSep "\n".data ([] ::
    ((sortStrs sectionKeys).flatMap (fun s => summarySectionLines s (sectionMethods m s))
      ++ [[]])), by simp⟩

theorem summaryBody_ends_nl {δ : Type} (m : OpenAPISpecs δ) :
    ∃ b, summaryBody m = b ++ ['\n'] := by
  unfold summaryBody
  rw [summaryLines_eq]
  have : ("## API".data : Str) :: [] ::
      ((sortStrs sectionKeys).flatMap (fun s => summarySectionLines s (sectionMethods m s))
        ++ [[]])
      = ("## API".data :: [] ::
          (sortStrs sectionKeys).flatMap (fun s => summarySectionLines s (sectionMethods m s)))
        ++ [[]] := by simp
  rw [this]
  exact joinSep_concat_nil_ends _ (by simp)

theorem summaryBody_has_nonws {δ : Type} (m : OpenAPISpecs δ) :
    ∃ c ∈ summaryBody m, wsChar c = false := by
  obtain ⟨rest, hr⟩ := summaryBody_head m
  refine ⟨'#', ?_, by decide⟩
  rw [hr]
  exact List.mem_append.mpr (Or.inl (by decide))

theorem trimEnd_body_head {δ : Type} (m : OpenAPISpecs δ) :
    ∃ rest, trimEnd (summaryBody m) = "## API".data ++ rest := by
  obtain ⟨r, hr⟩ := summaryBody_head m
  rw [hr]
  rw [show ("## API".data ++ '\n' :: r : Str) = "## AP".data ++ ('I' :: ('\n' :: r)) from rfl]
  rw [trimEnd_append_of_exists ⟨'I', by simp, by decide⟩]
  rw [trimEnd_cons_of_not_ws (by decide)]
  exact ⟨trimEnd ('\n' :: r), rfl⟩


theorem t3_pre_join :
    ∀ ls : List Str, "## ".data <+: joinSep "\n".data ls →
      ∃ hd t, ls = hd :: t ∧ "## ".data <+: hd := by
  intro ls
  induction ls with
  | nil =>
    intro h
    obtain ⟨t, ht⟩ := h
    exact absurd (List.append_eq_nil.mp ht).1 (by decide)
  | cons a t ih =>
    intro h
    cases t with
    | nil => exact ⟨a, [], rfl, h⟩
    | cons b t' =>
      rw [joinSep_cons_cons, List.append_assoc] at h
      have h3 : ("## ".data : Str).length = 3 := by decide
      by_cases hla : 3 ≤ a.length
      · exact ⟨a, b :: t', rfl, pre_of_append_of_le h (by omega)⟩
      · obtain ⟨ha, hrest⟩ := append_split_of_pre h (by omega)
        exfalso
        have hlen : a.length = ("## ".data.take a.length : Str).length := by rw [← ha]
        rw [List.length_take] at hlen
        have hl3 : a.length < 3 := by omega
        have hd : ("## ".data : Str).drop a.length <+: '\n' :: joinSep "\n".data (b :: t') := by
          simpa using hrest
        rcases (by omega : a.length = 0 ∨ a.length = 1 ∨ a.length = 2) with h0 | h0 | h0
        · rw [h0, show ("## ".data : Str).drop 0 = '#' :: "# ".data from by decide,
            List.cons_prefix_cons] at hd
          exact absurd hd.1 (by decide)
        · rw [h0, show ("## ".data : Str).drop 1 = '#' :: " ".data from by decide,
            List.cons_prefix_cons] at hd
          exact absurd hd.1 (by decide)
        · rw [h0, show ("## ".data : Str).drop 2 = ' ' :: ([] : Str) from by decide,
            List.cons_prefix_cons] at hd
          exact absurd hd.1 (by decide)

theorem noOcc_join :
    ∀ ls : List Str, (∀ l ∈ ls, noOcc nlHeaderPat l) →
      (∀ l ∈ ls.tail, ¬ "## ".data <+: l) →
      noOcc nlHeaderPat (joinSep "\n".data ls) := by
  intro ls
  induction ls with
  | nil =>
    intro _ _ p hp
    have hj : joinSep "\n".data ([] : List Str) = [] := rfl
    rw [hj, List.drop_nil] at hp
    obtain ⟨t, ht⟩ := hp
    exact nlPat_ne_nil (List.append_eq_nil.mp ht).1
  | cons a t ih =>
    intro hall htail
    cases t with
    | nil => exact hall a (by simp)
    | cons b t' =>
      rw [joinSep_cons_cons, List.append_assoc]
      intro p hp
      have hsep : ("\n".data : Str) ++ joinSep "\n".data (b :: t')
          = '\n' :: joinSep "\n".data (b :: t') := rfl
      rw [hsep] at hp
      have h4 : (nlHeaderPat : Str).length = 4 := by decide
      have hj : noOcc nlHeaderPat (joinSep "\n".data (b :: t')) := by
        apply ih
        · intro l hl; exact hall l (List.mem_cons_of_mem _ hl)
        · intro l hl
          exact htail l (List.mem_cons_of_mem _ hl)
      by_cases hpa : p < a.length
      · rw [List.drop_append_of_le_length (by omega)] at hp
        by_cases hfit : p + 4 ≤ a.length
        · have hda : (a.drop p).length = a.length - p := by simp
          have : nlHeaderPat <+: a.drop p :=
            pre_of_append_of_le hp (by omega)
          exact hall a (by simp) p this
        · have hda : (a.drop p).length = a.length - p := by simp
          obtain ⟨hd, hrest⟩ := append_split_of_pre hp (by omega)
          rw [hda] at hrest
          rcases (by omega : a.length - p = 1 ∨ a.length - p = 2 ∨ a.length - p = 3)
            with h0 | h0 | h0
          · rw [h0, show (nlHeaderPat : Str).drop 1 = '#' :: "# ".data from by decide,
              List.cons_prefix_cons] at hrest
            exact absurd hrest.1 (by decide)
          · rw [h0, show (nlHeaderPat : Str).drop 2 = '#' :: " ".data from by decide,
              List.cons_prefix_cons] at hrest
            exact absurd hrest.1 (by decide)
          · rw [h0, show (nlHeaderPat : Str).drop 3 = ' ' :: ([] : Str) from by decide,
              List.cons_prefix_cons] at hrest
            exact absurd hrest.1 (by decide)
      · rw [drop_append_ge (by omega)] at hp
        cases hq : p - a.length with
        | zero =>
          rw [hq, List.drop_zero] at hp
          rw [show (nlHeaderPat : Str) = '\n' :: "## ".data from by decide,
            List.cons_prefix_cons] at hp
          obtain ⟨hd2, t2, hls, hpre2⟩ := t3_pre_join _ hp.2
          have hb : hd2 = b := by
            cases hls
            rfl
          rw [hb] at hpre2
          exact htail b (by simp) hpre2
        | succ j =>
          rw [hq] at hp
          simp only [List.drop_succ_cons] at hp
          exact hj j hp

theorem header_no_self_overlap :
    ∀ k, 1 ≤ k → k < 6 → ¬ (apiHeader.drop k <+: apiHeader) := by
  intro k h1 h2
  interval_cases k <;> decide

theorem header_first {pre X : Str} (hX : apiHeader <+: X)
    (hnopre : ∀ m', m' < pre.length → ¬ apiHeader <+: pre.drop m') :
    strIndexOf apiHeader (pre ++ X) = some pre.length := by
  have h6 : (apiHeader : Str).length = 6 := by decide
  rw [strIndexOf_some_iff apiHeader_ne_nil]
  constructor
  · rw [List.drop_left]
    exact hX
  · intro m' hm' hp
    rw [List.drop_append_of_le_length (by omega)] at hp
    by_cases hfit : m' + 6 ≤ pre.length
    · have hda : (pre.drop m').length = pre.length - m' := by simp
      exact hnopre m' hm' (pre_of_append_of_le hp (by omega))
    · have hda : (pre.drop m').length = pre.length - m' := by simp
      obtain ⟨hd, hrest⟩ := append_split_of_pre hp (by omega)
      obtain ⟨X', hX'⟩ := hX
      rw [← hX'] at hrest
      rw [hda] at hrest
      have hle : (apiHeader.drop (pre.length - m')).length ≤ apiHeader.length := by simp
      have hfin := pre_of_append_of_le hrest hle
      exact header_no_self_overlap (pre.length - m') (by omega) (by omega) hfin

theorem noOcc_nil_str : noOcc nlHeaderPat [] := by
  intro p hp
  rw [List.drop_nil] at hp
  obtain ⟨t, ht⟩ := hp
  exact nlPat_ne_nil (List.append_eq_nil.mp ht).1

theorem sectionLines_cases (sectionKey : Str) (methods0 : List Str) :
    ∀ l ∈ summarySectionLines sectionKey methods0,
      l = "- ".data ++ replaceFirstCharToUpperCase sectionKey ∨ l ∈ fixedMethodLines ∨
      l = [] ∨
      (∃ mth, mth ∈ methods0 ∧
        l = "          spec: hl-".data ++ sectionKey ++ "-".data ++ mth) := by
  intro l hl
  simp only [summarySectionLines] at hl
  by_cases he : (sortStrs methods0).length = 0
  · rw [if_pos he] at hl
    exact absurd hl (by simp)
  · rw [if_neg he] at hl
    rcases List.mem_cons.mp hl with h | h
    · exact Or.inl h
    rcases List.mem_append.mp h with h | h
    · rw [List.mem_flatMap] at h
      obtain ⟨mth, hmth, hline⟩ := h
      have hmem : mth ∈ methods0 := by
        unfold sortStrs at hmth
        exact (List.mem_insertionSort _).mp hmth
      unfold methodLines at hline
      simp only [List.mem_cons, List.not_mem_nil, or_false] at hline
      rcases hline with h|h|h|h|h|h|h|h|h|h|h
      · exact Or.inr (Or.inl (by rw [h]; decide))
      · exact Or.inr (Or.inl (by rw [h]; decide))
      · exact Or.inr (Or.inl (by rw [h]; decide))
      · exact Or.inr (Or.inl (by rw [h]; decide))
      · exact Or.inr (Or.inl (by rw [h]; decide))
      · exact Or.inr (Or.inl (by rw [h]; decide))
      · exact Or.inr (Or.inl (by rw [h]; decide))
      · exact Or.inr (Or.inl (by rw [h]; decide))
      · exact Or.inr (Or.inl (by rw [h]; decide))
      · exact Or.inr (Or.inr (Or.inr ⟨mth, hmem, h⟩))
      · exact Or.inr (Or.inl (by rw [h]; decide))
    · have hnil : l = [] := by simpa using h
      exact Or.inr (Or.inr (Or.inl hnil))

theorem flat_line_cases {δ : Type} (m : OpenAPISpecs δ) :
    ∀ l ∈ (sortStrs sectionKeys).flatMap
        (fun s => summarySectionLines s (sectionMethods m s)),
      l = "- Exchange".data ∨ l = "- Info".data ∨ l ∈ fixedMethodLines ∨ l = [] ∨
      (∃ mth, mth ∈ m.info.map Prod.fst ∧
        l = "          spec: hl-info-".data ++ mth) ∨
      (∃ mth, mth ∈ m.exchange.map Prod.fst ∧
        l = "          spec: hl-exchange-".data ++ mth) := by
  intro l hl
  rw [List.mem_flatMap] at hl
  obtain ⟨s, hs, hl⟩ := hl
  rw [show sortStrs sectionKeys = ["exchange".data, "info".data] from by decide] at hs
  simp only [List.mem_cons, List.not_mem_nil, or_false] at hs
  rcases hs with hs | hs <;> subst hs
  · rcases sectionLines_cases _ _ l hl with h | h | h | h
    · exact Or.inl (by rw [h]; decide)
    · exact Or.inr (Or.inr (Or.inl h))
    · exact Or.inr (Or.inr (Or.inr (Or.inl h)))
    · obtain ⟨mth, hmem, hline⟩ := h
      have hmem' : mth ∈ m.exchange.map Prod.fst := by
        have : sectionMethods m "exchange".data = m.exchange.map Prod.fst := rfl
        rwa [this] at hmem
      refine Or.inr (Or.inr (Or.inr (Or.inr (Or.inr ⟨mth, hmem', ?_⟩))))
      rw [hline]
      rw [show ("          spec: hl-".data ++ "exchange".data ++ "-".data : Str)
        = "          spec: hl-exchange-".data from by decide]
  · rcases sectionLines_cases _ _ l hl with h | h | h | h
    · exact Or.inr (Or.inl (by rw [h]; decide))
    · exact Or.inr (Or.inr (Or.inl h))
    · exact Or.inr (Or.inr (Or.inr (Or.inl h)))
    · obtain ⟨mth, hmem, hline⟩ := h
      have hmem' : mth ∈ m.info.map Prod.fst := by
        have : sectionMethods m "info".data = m.info.map Prod.fst := rfl
        rwa [this] at hmem
      refine Or.inr (Or.inr (Or.inr (Or.inr (Or.inl ⟨mth, hmem', ?_⟩))))
      rw [hline]
      rw [show ("          spec: hl-".data ++ "info".data ++ "-".data : Str)
        = "          spec: hl-info-".data from by decide]

theorem lines_noOcc {δ : Type} (m : OpenAPISpecs δ)
    (hm : ∀ mth ∈ m.info.map Prod.fst ++ m.exchange.map Prod.fst,
            containsPat nlHeaderPat mth = false) :
    ∀ l ∈ summaryLines m, noOcc nlHeaderPat l := by
  intro l hl
  rw [summaryLines_eq] at hl
  rcases List.mem_cons.mp hl with h | h
  · rw [h]
    exact noOcc_of_contains_false nlPat_ne_nil (by decide)
  rcases List.mem_cons.mp h with h | h
  · rw [h]; exact noOcc_nil_str
  rcases List.mem_append.mp h with h | h
  · rcases flat_line_cases m l h with h | h | h | h | h | h
    · rw [h]; exact noOcc_of_contains_false nlPat_ne_nil (by decide)
    · rw [h]; exact noOcc_of_contains_false nlPat_ne_nil (by decide)
    · refine noOcc_of_contains_false nlPat_ne_nil ?_
      have hall : ∀ x ∈ fixedMethodLines, containsPat nlHeaderPat x = false := by decide
      exact hall l h
    · rw [h]; exact noOcc_nil_str
    · obtain ⟨mth, hmem, hline⟩ := h
      rw [hline]
      exact noOcc_append_left_no_nl (by decide)
        (noOcc_of_contains_false nlPat_ne_nil (hm mth (List.mem_append.mpr (Or.inl hmem))))
    · obtain ⟨mth, hmem, hline⟩ := h
      rw [hline]
      exact noOcc_append_left_no_nl (by decide)
        (noOcc_of_contains_false nlPat_ne_nil (hm mth (List.mem_append.mpr (Or.inr hmem))))
  · have hnil : l = [] := by simpa using h
    rw [hnil]; exact noOcc_nil_str

theorem lines_tail_no_t3 {δ : Type} (m : OpenAPISpecs δ) :
    ∀ l ∈ (summaryLines m).tail, ¬ "## ".data <+: l := by
  intro l hl
  rw [summaryLines_eq] at hl
  simp only [List.tail_cons] at hl
  have hnilcase : ¬ ("## ".data : Str) <+: [] := by
    intro hp
    obtain ⟨t, ht⟩ := hp
    exact absurd (List.append_eq_nil.mp ht).1 (by decide)
  rcases List.mem_cons.mp hl with h | h
  · rw [h]; exact hnilcase
  rcases List.mem_append.mp h with h | h
  · rcases flat_line_cases m l h with h | h | h | h | h | h
    · rw [h]; decide
    · rw [h]; decide
    · have hall : ∀ x ∈ fixedMethodLines, ¬ ("## ".data : Str) <+: x := by decide
      exact hall l h
    · rw [h]; exact hnilcase
    · obtain ⟨mth, hmem, hline⟩ := h
      rw [hline]
      rw [show ("          spec: hl-info-".data ++ mth : Str)
        = ' ' :: ("         spec: hl-info-".data ++ mth) from rfl]
      intro hp
      rw [show ("## ".data : Str) = '#' :: "# ".data from by decide,
        List.cons_prefix_cons] at hp
      exact absurd hp.1 (by decide)
    · obtain ⟨mth, hmem, hline⟩ := h
      rw [hline]
      rw [show ("          spec: hl-exchange-".data ++ mth : Str)
        = ' ' :: ("         spec: hl-exchange-".data ++ mth) from rfl]
      intro hp
      rw [show ("## ".data : Str) = '#' :: "# ".data from by decide,
        List.cons_prefix_cons] at hp
      exact absurd hp.1 (by decide)
  · have hnil : l = [] := by simpa using h
    rw [hnil]; exact hnilcase

theorem noOcc_body {δ : Type} (m : OpenAPISpecs δ)
    (hm : ∀ mth ∈ m.info.map Prod.fst ++ m.exchange.map Prod.fst,
            containsPat nlHeaderPat mth = false) :
    noOcc nlHeaderPat (summaryBody m) :=
  noOcc_join _ (lines_noOcc m hm) (lines_tail_no_t3 m)

theorem updateSummaryText_cases {δ : Type} (m : OpenAPISpecs δ) (text : Str) (start : Nat)
    (hstart : strIndexOf apiHeader text = some start) :
    (strIndexOfFrom nlHeaderPat text (start + apiHeader.length) = none →
       updateSummaryText m text
         = some (text.take start ++ trimEnd (summaryBody m) ++ ['\n'])) ∧
    (∀ i, strIndexOfFrom nlHeaderPat text (start + apiHeader.length) = some i →
       updateSummaryText m text
         = some (text.take start ++ summaryBody m ++ trimEnd (text.drop i) ++ ['\n'])) := by
  constructor
  · intro hnone
    unfold updateSummaryText
    rw [hstart]
    dsimp only
    rw [hnone]
    dsimp only
    congr 1
    rw [List.append_nil]
    rw [trimEnd_append_of_exists (summaryBody_has_nonws m)]
    try rw [List.append_assoc]
  · intro i hi
    unfold updateSummaryText
    rw [hstart]
    dsimp only
    rw [hi]
    dsimp only
    congr 1
    have hocc : nlHeaderPat <+: text.drop i :=
      ((strIndexOfFrom_some_iff nlPat_ne_nil text _ i).mp hi).2.1
    have hnws : ∃ c ∈ text.drop i, wsChar c = false := by
      obtain ⟨u, hu⟩ := hocc
      refine ⟨'#', ?_, by decide⟩
      rw [← hu]
      exact List.mem_append.mpr (Or.inl (by decide))
    rw [trimEnd_append_of_exists hnws]

/-- C8: the ToC update is a pure text splice.  When the `## API` header is
found at index `start`, the output is exactly: the bytes before the header,
unchanged; the freshly generated section body; and — when a next top-level
header exists at index `i` — the entire trailing section `text.drop i`,
unchanged apart from the trailing-whitespace trim, followed by the single
trailing newline (when there is no next header, the regenerated body is
trimmed and the newline appended). -/
theorem summary_update_frame {δ : Type} (m : OpenAPISpecs δ) (text : Str) (start : Nat)
    (hstart : strIndexOf apiHeader text = some start) :
    (strIndexOfFrom nlHeaderPat text (start + apiHeader.length) = none →
       updateSummaryText m text
         = some (text.take start ++ trimEnd (summaryBody m) ++ ['\n'])) ∧
    (∀ i, strIndexOfFrom nlHeaderPat text (start + apiHeader.length) = some i →
       updateSummaryText m text
         = some (text.take start ++ summaryBody m ++ trimEnd (text.drop i) ++ ['\n'])) :=
  updateSummaryText_cases m text start hstart

/-- C8 (witness): the frame property at a concrete document with a prefix,
an old section body, and a trailing section. -/
theorem summary_update_frame_witness :
    updateSummaryText (⟨[("m".data, ())], []⟩ : OpenAPISpecs Unit)
        "x\n## API\nold\n## Next\nr".data
      = some ("x\n## API\nold\n## Next\nr".data.take 2
          ++ summaryBody (⟨[("m".data, ())], []⟩ : OpenAPISpecs Unit)
          ++ trimEnd ("x\n## API\nold\n## Next\nr".data.drop 12) ++ ['\n']) := by
  exact (summary_update_frame (⟨[("m".data, ())], []⟩ : OpenAPISpecs Unit)
    "x\n## API\nold\n## Next\nr".data 2 (by decide)).2 12 (by decide)

set_option maxRecDepth 100000

/-- C7 (counterexample): the ToC update is not idempotent for every map and
every document containing the header.  Two failure modes, each at a concrete
input: (1) with an ordinary one-method map, a document whose following
top-level header line `## ` is followed only by whitespace — the first run's
`trimEnd` truncates that header to `##`, so the second run no longer finds a
next section and regenerates differently; (2) with a well-formed document but
a method name containing `"\n## "` — the generated body itself contains a
next-header match, which the second run treats as the section end. -/
theorem summary_update_idempotent_counterexample :
    ((updateSummaryText (⟨[("m".data, ())], []⟩ : OpenAPISpecs Unit) "## API\n## \n".data).bind
        (updateSummaryText (⟨[("m".data, ())], []⟩ : OpenAPISpecs Unit))
      ≠ updateSummaryText (⟨[("m".data, ())], []⟩ : OpenAPISpecs Unit) "## API\n## \n".data) ∧
    ((updateSummaryText (⟨[("a\n## B".data, ())], []⟩ : OpenAPISpecs Unit) "## API".data).bind
        (updateSummaryText (⟨[("a\n## B".data, ())], []⟩ : OpenAPISpecs Unit))
      ≠ updateSummaryText (⟨[("a\n## B".data, ())], []⟩ : OpenAPISpecs Unit) "## API".data) := by
  constructor
  · decide
  · decide

/-- C7 (amended): the ToC update is idempotent provided (a) no method name of
the input map contains the substring `"\n## "` (so the regenerated body
contains no next-header match), and (b) whenever a next top-level header is
found in the document, the text after its `"\n## "` marker contains some
non-whitespace character (so the trailing trim cannot truncate the marker).
Under these hypotheses, running the updater on its own output with the same
map returns that output unchanged. -/
theorem summary_update_idempotent_amended {δ : Type} (m : OpenAPISpecs δ) (text O : Str)
    (hm : ∀ mth ∈ m.info.map Prod.fst ++ m.exchange.map Prod.fst,
            containsPat nlHeaderPat mth = false)
    (hws : ∀ start i, strIndexOf apiHeader text = some start →
        strIndexOfFrom nlHeaderPat text (start + apiHeader.length) = some i →
        (text.drop (i + 4)).any (fun c => !wsChar c) = true)
    (hrun : updateSummaryText m text = some O) :
    updateSummaryText m O = some O := by
  have h4 : (nlHeaderPat : Str).length = 4 := by decide
  have h6 : (apiHeader : Str).length = 6 := by decide
  cases hstart : strIndexOf apiHeader text with
  | none =>
    unfold updateSummaryText at hrun
    rw [hstart] at hrun
    exact absurd hrun (by simp)
  | some start =>
    have hnopre : ∀ m', m' < (text.take start).length →
        ¬ apiHeader <+: (text.take start).drop m' := by
      intro m' hm' hp
      have h2 := ((strIndexOf_some_iff apiHeader_ne_nil text start).mp hstart).2
      have hlt : m' < start := by
        have := List.length_take start text
        omega
      exact h2 m' hlt (occ_of_take hp)
    have hbody := noOcc_body m hm
    obtain ⟨bEnd, hbodyends⟩ := summaryBody_ends_nl m
    obtain ⟨rest0, hbodyhead⟩ := summaryBody_head m
    have hblen : 7 ≤ (summaryBody m).length := by
      rw [hbodyhead]
      have hl6 : ("## API".data : Str).length = 6 := by decide
      rw [List.length_append, hl6, List.length_cons]
      omega
    cases hnext : strIndexOfFrom nlHeaderPat text (start + apiHeader.length) with
    | none =>
      have hcase := (updateSummaryText_cases m text start hstart).1 hnext
      have hO : O = text.take start ++ (trimEnd (summaryBody m) ++ ['\n']) := by
        have h2 := Option.some.inj (hcase.symm.trans hrun)
        rw [← h2, List.append_assoc]
      have hX : apiHeader <+: trimEnd (summaryBody m) ++ ['\n'] := by
        obtain ⟨r, hr⟩ := trimEnd_body_head m
        rw [hr, List.append_assoc]
        exact ⟨_, rfl⟩
      have h1 : strIndexOf apiHeader O = some (text.take start).length := by
        rw [hO]; exact header_first hX hnopre
      have hXno : noOcc nlHeaderPat (trimEnd (summaryBody m) ++ ['\n']) :=
        noOcc_concat_nl (noOcc_of_pre hbody (trimEnd_pre _))
      have h2 : strIndexOfFrom nlHeaderPat O
          ((text.take start).length + apiHeader.length) = none := by
        rw [strIndexOfFrom_none_iff nlPat_ne_nil]
        intro mm hmm hp
        rw [hO, drop_append_ge (by omega)] at hp
        exact hXno _ hp
      have hfin := (updateSummaryText_cases m O (text.take start).length h1).1 h2
      rw [hfin]
      congr 1
      rw [hO, List.take_left, ← List.append_assoc]
    | some i =>
      have hocc := (strIndexOfFrom_some_iff nlPat_ne_nil text _ i).mp hnext
      have hig : start + apiHeader.length ≤ i := hocc.1
      have hpre4 : nlHeaderPat <+: text.drop i := hocc.2.1
      have hdropi : text.drop i = nlHeaderPat ++ text.drop (i + 4) := by
        obtain ⟨u, hu⟩ := hpre4
        have hud : text.drop (i + 4) = u := by
          have hdd : (text.drop i).drop 4 = text.drop (i + 4) := List.drop_drop 4 i text
          rw [← hdd, ← hu, ← h4, List.drop_left]
        rw [hud]
        exact hu.symm
      have hnws : ∃ c ∈ text.drop (i + 4), wsChar c = false := by
        obtain ⟨c, hc, hcw⟩ := List.any_eq_true.mp (hws start i hstart hnext)
        exact ⟨c, hc, by simpa using hcw⟩
      have htb : trimEnd (text.drop i) = nlHeaderPat ++ trimEnd (text.drop (i + 4)) := by
        rw [hdropi, trimEnd_append_of_exists hnws]
      have hcase := (updateSummaryText_cases m text start hstart).2 i hnext
      have hO2 : O = text.take start
          ++ (summaryBody m ++ (trimEnd (text.drop i) ++ ['\n'])) := by
        have h2 := Option.some.inj (hcase.symm.trans hrun)
        rw [← h2]
        simp [List.append_assoc]
      have hO1 : O = (text.take start ++ summaryBody m)
          ++ (trimEnd (text.drop i) ++ ['\n']) := by
        rw [hO2, ← List.append_assoc]
      have hX : apiHeader <+: summaryBody m ++ (trimEnd (text.drop i) ++ ['\n']) := by
        rw [hbodyhead, List.append_assoc]
        exact ⟨_, rfl⟩
      have h1 : strIndexOf apiHeader O = some (text.take start).length := by
        rw [hO2]; exact header_first hX hnopre
      have hlenpb : (text.take start ++ summaryBody m : Str).length
          = (text.take start).length + (summaryBody m).length := by simp
      have hdropq : O.drop ((text.take start).length + (summaryBody m).length)
          = trimEnd (text.drop i) ++ ['\n'] := by
        rw [hO1, ← hlenpb, List.drop_left]
      have hq : strIndexOfFrom nlHeaderPat O
          ((text.take start).length + apiHeader.length)
          = some ((text.take start).length + (summaryBody m).length) := by
        rw [strIndexOfFrom_some_iff nlPat_ne_nil]
        refine ⟨by omega, ?_, ?_⟩
        · rw [hdropq, htb, List.append_assoc]
          exact ⟨_, rfl⟩
        · intro mm h1mm h2mm hp
          rw [hO1] at hp
          have hmmlt : mm < (text.take start ++ summaryBody m : Str).length := by
            rw [hlenpb]; omega
          rw [List.drop_append_of_le_length (by omega)] at hp
          have hdpb : (text.take start ++ summaryBody m : Str).drop mm
              = (summaryBody m).drop (mm - (text.take start).length) :=
            drop_append_ge (by omega)
          rw [hdpb] at hp
          set j := mm - (text.take start).length with hj
          have hjlt : j < (summaryBody m).length := by omega
          have hdl : ((summaryBody m).drop j).length = (summaryBody m).length - j := by simp
          by_cases hfit : 4 ≤ (summaryBody m).length - j
          · exact hbody j (pre_of_append_of_le hp (by omega))
          · obtain ⟨hd, hrest⟩ := append_split_of_pre hp (by omega)
            have hlast : ((summaryBody m).drop j).getLast? = some '\n' := by
              rw [hbodyends]
              have hjb : j ≤ bEnd.length := by
                have hle := congrArg List.length hbodyends
                rw [List.length_append] at hle
                simp at hle
                omega
              rw [List.drop_append_of_le_length hjb]
              exact List.getLast?_concat _
            rw [hdl] at hd hrest
            rcases (by omega : (summaryBody m).length - j = 1 ∨
                (summaryBody m).length - j = 2 ∨ (summaryBody m).length - j = 3)
              with h0 | h0 | h0
            · rw [h0] at hrest
              rw [show (nlHeaderPat : Str).drop 1 = '#' :: "# ".data from by decide] at hrest
              have hz : trimEnd (text.drop i) ++ ['\n']
                  = '\n' :: (("## ".data ++ trimEnd (text.drop (i + 4))) ++ ['\n']) := by
                rw [htb]
                rfl
              rw [hz, List.cons_prefix_cons] at hrest
              exact absurd hrest.1 (by decide)
            · rw [h0] at hd
              rw [hd] at hlast
              exact absurd hlast (by decide)
            · rw [h0] at hd
              rw [hd] at hlast
              exact absurd hlast (by decide)
      have hfin := (updateSummaryText_cases m O (text.take start).length h1).2 _ hq
      rw [hfin]
      congr 1
      rw [hdropq, trimEnd_concat_ws (by decide), trimEnd_trimEnd]
      conv_lhs => rw [hO2, List.take_left]
      conv_rhs => rw [hO1]
      rw [← List.append_assoc]

/-- C7 (witness): the amended idempotence at a concrete map and a concrete
well-formed document with prefix, old body, and trailing section. -/
theorem summary_update_idempotent_witness :
    updateSummaryText (⟨[("m".data, ())], []⟩ : OpenAPISpecs Unit)
        ((updateSummaryText (⟨[("m".data, ())], []⟩ : OpenAPISpecs Unit)
            "x\n## API\nold\n## Next\nr".data).getD [])
      = some ((updateSummaryText (⟨[("m".data, ())], []⟩ : OpenAPISpecs Unit)
            "x\n## API\nold\n## Next\nr".data).getD []) := by
  apply summary_update_idempotent_amended (⟨[("m".data, ())], []⟩ : OpenAPISpecs Unit)
    "x\n## API\nold\n## Next\nr".data
  · decide
  · intro start i h1 h2
    have hs : start = 2 := by
      have hcv : strIndexOf apiHeader "x\n## API\nold\n## Next\nr".data = some 2 := by decide
      exact (Option.some.inj (hcv.symm.trans h1)).symm
    subst hs
    have hi : i = 12 := by
      have hcv : strIndexOfFrom nlHeaderPat "x\n## API\nold\n## Next\nr".data
          (2 + apiHeader.length) = some 12 := by decide
      exact (Option.some.inj (hcv.symm.trans h2)).symm
    subst hi
    decide
  · rfl
